import Mathlib

/-!
# Verification of the Redis retention scheduler module

A shallow embedding of `src/module/module.py` (the `retention-redis`
Shinken scheduler module) together with proofs about its key-encoding
scheme, its save / load hooks and its reconciliation pass.

Strings are modelled as `List Char`; the Redis store as an association
list from keys to opaque payloads; `cPickle.dumps` / `cPickle.loads`
as an abstract pair of functions.  Python's `str.replace`, the two
regular expressions used by `_yield_outdated_keys`, and the control
flow of the three hooks are translated operation by operation.
-/

namespace RetentionRedis

/-- Python strings, modelled as lists of characters. -/
abbrev Str := List Char

/-- The reserved token substituted for every space character in a
service key (`key.replace(' ', 'SPACE')`, module.py line 102). -/
def spaceToken : Str := ['S', 'P', 'A', 'C', 'E']

/-- The `"HOST-"` key marker used by `'HOST-%s' % host_name`. -/
def hostTag : Str := ['H', 'O', 'S', 'T', '-']

/-- The `"SERVICE-"` key marker used by `'SERVICE-%s,%s'`. -/
def serviceTag : Str := ['S', 'E', 'R', 'V', 'I', 'C', 'E', '-']

/-- Python `s.replace(' ', 'SPACE')`: since the pattern is a single
character, every space is independently replaced by the token. -/
def spaceEnc : Str → Str
  | [] => []
  | c :: rest => (if c = ' ' then spaceToken else [c]) ++ spaceEnc rest

/-- Python `s.replace('SPACE', ' ')` (module.py line 133): scan left to
right; whenever `SPACE` starts at the current position, emit a space
and skip the five matched characters, otherwise keep the character. -/
def unspace : Str → Str
  | [] => []
  | 'S' :: 'P' :: 'A' :: 'C' :: 'E' :: rest => ' ' :: unspace rest
  | c :: rest => c :: unspace rest

/-- `'HOST-%s' % host_name` (module.py line 95): no space substitution
is applied to host keys. -/
def hostKey (h : Str) : Str := hostTag ++ h

/-- `'SERVICE-%s,%s' % (host_name, service_desc)` followed by
`key.replace(' ', 'SPACE')` (module.py lines 100-102). -/
def serviceKey (h d : Str) : Str := spaceEnc (serviceTag ++ h ++ [','] ++ d)

/-- Boolean prefix test on character lists (used to model the anchored
`re.match` and, position by position, the unanchored `re.search`). -/
def isPre : Str → Str → Bool
  | [], _ => true
  | _ :: _, [] => false
  | a :: as, b :: bs => a = b && isPre as bs

/-- Boolean substring test: `strContains pat l` holds when `pat` occurs
contiguously somewhere in `l`.  Models `re.search` for a pattern that is
a plain literal, such as `re.search(r'HOST-', key)` (module.py 125). -/
def strContains (pat : Str) : Str → Bool
  | [] => isPre pat []
  | c :: rest => isPre pat (c :: rest) || strContains pat rest

/-- Split a string at its first comma, returning the (comma-free) part
before it and everything after it. -/
def splitFirstComma : Str → Option (Str × Str)
  | [] => none
  | c :: rest =>
    if c = ',' then some ([], rest)
    else (splitFirstComma rest).map (fun p => (c :: p.1, p.2))

/-- `re.match(r'SERVICE-([^,]+),(.*)', key)` (module.py line 132):
anchored at the start, the key must begin with `SERVICE-`, followed by
at least one non-comma character, a comma, then anything.  The greedy
`[^,]+` stops at the first comma.  Returns the two captured groups. -/
def matchServiceAt (k : Str) : Option (Str × Str) :=
  if isPre serviceTag k then
    match splitFirstComma (k.drop 8) with
    | some (h, d) => if h = [] then none else some (h, d)
    | none => none
  else none

/-- `re.search(r'SERVICE-([^,]+),(.*)', key)` (module.py line 131):
true when the anchored pattern matches at some position of the key. -/
def searchService : Str → Bool
  | [] => (matchServiceAt []).isSome
  | c :: rest => (matchServiceAt (c :: rest)).isSome || searchService rest

/-- `re.search(r'HOST-', key)` (module.py line 125). -/
def searchHost (k : Str) : Bool := strContains hostTag k

/-- `re.match(r'HOST-(.*)', key)` (module.py line 126): anchored; the
single captured group is everything after the `HOST-` marker. -/
def matchHost (k : Str) : Option Str :=
  if isPre hostTag k then some (k.drop 5) else none

/-- Outcome of classifying one scanned key inside
`_yield_outdated_keys` (module.py lines 123-139). -/
inductive ScanResult where
  /-- The `HOST-` branch fired and `re.match` captured a host name. -/
  | hostK (h : Str) : ScanResult
  /-- The `SERVICE-` branch fired; the description has had the space
  token substituted back (`service_desc.replace('SPACE', ' ')`). -/
  | serviceK (h d : Str) : ScanResult
  /-- Neither branch fired: the key is ignored (`else: pass`). -/
  | invalid : ScanResult
  /-- `re.search` fired but the anchored `re.match` returned `None`, so
  `.groups()` raises `AttributeError`. -/
  | crash : ScanResult
deriving DecidableEq

/-- Key classification of `_yield_outdated_keys`: the `if/elif/else`
chain over the two `re.search` guards, each followed by an anchored
`re.match` whose groups are extracted (module.py lines 125-139). -/
def classifyKey (k : Str) : ScanResult :=
  if searchHost k then
    match matchHost k with
    | some h => .hostK h
    | none => .crash
  else if searchService k then
    match matchServiceAt k with
    | some (h, d) => .serviceK h (unspace d)
    | none => .crash
  else .invalid

/-- The decode step applied to a service key by `_yield_outdated_keys`
(module.py lines 132-133): split at the first comma after `SERVICE-`,
then reverse the space-token substitution — on the description only,
exactly as the code does. -/
def decodeServiceKey (k : Str) : Option (Str × Str) :=
  (matchServiceAt k).map (fun p => (p.1, unspace p.2))

/-- The Redis store, as seen through the operations the module uses
(`set`, `get`, `delete`, `keys('*')`): a finite association from key
strings to payloads, kept as a duplicate-free association list. -/
abbrev Store (β : Type) := List (Str × β)

/-- `self.client.get(key)`: `None` when the key is absent. -/
def sget {β : Type} : Store β → Str → Option β
  | [], _ => none
  | (k', v') :: rest, k => if k' = k then some v' else sget rest k

/-- `self.client.set(key, val)`: overwrite the value when the key is
present, otherwise add the binding. -/
def sset {β : Type} : Store β → Str → β → Store β
  | [], k, v => [(k, v)]
  | (k', v') :: rest, k, v =>
    if k' = k then (k, v) :: rest else (k', v') :: sset rest k v

/-- `self.client.delete(key)`: remove the binding for the key. -/
def sdel {β : Type} : Store β → Str → Store β
  | [], _ => []
  | (k', v') :: rest, k =>
    if k' = k then sdel rest k else (k', v') :: sdel rest k

/-- `self.client.keys('*')`: the list of all keys in the store. -/
def skeys {β : Type} (st : Store β) : List Str := st.map Prod.fst

/-- The sequence of `(key, value)` pairs that `hook_save_retention`
writes, in program order: every host of `all_data['hosts']` first
(module.py lines 94-97), then every service of `all_data['services']`
(lines 99-104).  `dumps` models `cPickle.dumps`. -/
def saveWrites {α β : Type} (dumps : α → β) (hosts : List (Str × α))
    (services : List ((Str × Str) × α)) : List (Str × β) :=
  hosts.map (fun p => (hostKey p.1, dumps p.2)) ++
    services.map (fun p => (serviceKey p.1.1 p.1.2, dumps p.2))

/-- `hook_save_retention` (module.py lines 85-105) when every
`self.client.set` succeeds: all writes are applied in order. -/
def hook_save_retention {α β : Type} (dumps : α → β) (hosts : List (Str × α))
    (services : List ((Str × Str) × α)) (st : Store β) : Store β :=
  (saveWrites dumps hosts services).foldl (fun s kv => sset s kv.1 kv.2) st

/-- The save loop when `self.client.set` may raise: `fails n` says
whether the `n`-th set call raises.  A raised store error propagates
out of `hook_save_retention` (there is no `try` around the loops), so
the fold stops at the first failure; the error carries the store state
at that moment. -/
def runWrites {β : Type} (fails : Nat → Bool) :
    List (Str × β) → Nat → Store β → Except (Store β) (Store β)
  | [], _, st => .ok st
  | kv :: rest, n, st =>
    if fails n then .error st
    else runWrites fails rest (n + 1) (sset st kv.1 kv.2)

/-- `hook_save_retention` with a failure oracle for the set calls. -/
def hook_save_retention_f {α β : Type} (fails : Nat → Bool) (dumps : α → β)
    (hosts : List (Str × α)) (services : List ((Str × Str) × α))
    (st : Store β) : Except (Store β) (Store β) :=
  runWrites fails (saveWrites dumps hosts services) 0 st

/-- The host-loading loop of `hook_load_retention` (module.py lines
153-158): for every known host, `get` its key; a missing key is
skipped; a present payload is decoded by `loadsE` (`cPickle.loads`,
which may raise — modelled by `none`, which aborts the whole load) and
the decoded record is stored under the host name. -/
def loadHosts {α β : Type} (loadsE : β → Option α) (st : Store β) :
    List Str → Store α → Option (Store α)
  | [], acc => some acc
  | n :: rest, acc =>
    match sget st (hostKey n) with
    | none => loadHosts loadsE st rest acc
    | some b =>
      match loadsE b with
      | none => none
      | some v => loadHosts loadsE st rest (acc ++ [(n, v)])

/-- The service-loading loop of `hook_load_retention` (module.py lines
160-167), keyed by `(host_name, service_description)` pairs. -/
def loadServices {α β : Type} (loadsE : β → Option α) (st : Store β) :
    List (Str × Str) → List ((Str × Str) × α) → Option (List ((Str × Str) × α))
  | [], acc => some acc
  | i :: rest, acc =>
    match sget st (serviceKey i.1 i.2) with
    | none => loadServices loadsE st rest acc
    | some b =>
      match loadsE b with
      | none => none
      | some v => loadServices loadsE st rest (acc ++ [(i, v)])

/-- The reconciliation loop of `hook_load_retention` (module.py lines
175-177) driving the generator `_yield_outdated_keys` (lines 107-139):
walk the snapshot of keys taken by `keys('*')`; classify each key; an
outdated key is deleted (`delFails` says whether that delete raises);
a classification crash (`AttributeError` from `.groups()`) or a failed
delete propagates, carrying the store as mutated so far. -/
def reconcileGo {β : Type} (delFails : Str → Bool) (dh : List Str)
    (ds : List (Str × Str)) : List Str → Store β → Except (Store β) (Store β)
  | [], st => .ok st
  | k :: rest, st =>
    match classifyKey k with
    | .hostK h =>
      if h ∈ dh then reconcileGo delFails dh ds rest st
      else if delFails k then .error st
      else reconcileGo delFails dh ds rest (sdel st k)
    | .serviceK h d =>
      if (h, d) ∈ ds then reconcileGo delFails dh ds rest st
      else if delFails k then .error st
      else reconcileGo delFails dh ds rest (sdel st k)
    | .invalid => reconcileGo delFails dh ds rest st
    | .crash => .error st

/-- The whole reconciliation pass: the key list is obtained once by
`self.client.keys('*')` before any delete happens. -/
def reconcile {β : Type} (delFails : Str → Bool) (dh : List Str)
    (ds : List (Str × Str)) (st : Store β) : Except (Store β) (Store β) :=
  reconcileGo delFails dh ds (skeys st) st

/-- The store carried by either outcome of a store-mutating loop. -/
def exStore {β : Type} : Except (Store β) (Store β) → Store β
  | .ok st => st
  | .error st => st

/-- Outcome of `hook_load_retention`: either a successfully assembled
snapshot (handed to `daemon.restore_retention_data`) together with the
reconciled store, or a propagated error with the store as it stood
when the error escaped the hook. -/
inductive HookResult (α β : Type) where
  /-- Both load loops and the reconciliation completed. -/
  | ok (rh : Store α) (rs : List ((Str × Str) × α)) (st : Store β) : HookResult α β
  /-- `cPickle.loads` raised during a load loop; no store mutation has
  happened yet. -/
  | decodeError (st : Store β) : HookResult α β
  /-- The reconciliation loop raised (classification crash or delete
  failure); earlier deletes of the pass have already been applied. -/
  | recError (st : Store β) : HookResult α β
deriving DecidableEq

/-- `hook_load_retention` (module.py lines 141-179): load hosts, load
services, hand the snapshot to the daemon, then delete every key the
generator `_yield_outdated_keys` reports as outdated.  `dh` / `ds` are
the daemon's known host and service identities, used both as the keys
fetched by the load loops and as the membership sets of the
reconciliation pass. -/
def hook_load_retention {α β : Type} (loadsE : β → Option α)
    (delFails : Str → Bool) (dh : List Str) (ds : List (Str × Str))
    (st : Store β) : HookResult α β :=
  match loadHosts loadsE st dh [] with
  | none => .decodeError st
  | some rh =>
    match loadServices loadsE st ds [] with
    | none => .decodeError st
    | some rs =>
      match reconcile delFails dh ds st with
      | .ok st' => .ok rh rs st'
      | .error st' => .recError st'

/-- The store state in which `hook_load_retention` leaves Redis,
whatever the outcome. -/
def hookStore {α β : Type} : HookResult α β → Store β
  | .ok _ _ st => st
  | .decodeError st => st
  | .recError st => st

/-- A scanned key is outdated in the sense of `_yield_outdated_keys`:
its classification decodes an identity absent from the daemon's
data. -/
def OutdatedKey (dh : List Str) (ds : List (Str × Str)) (k : Str) : Prop :=
  (∃ h, classifyKey k = .hostK h ∧ h ∉ dh) ∨
    (∃ h d, classifyKey k = .serviceK h d ∧ (h, d) ∉ ds)

/-! ## Basic facts about the space-token substitution -/

lemma unspace_token (rest : Str) :
    unspace ('S' :: 'P' :: 'A' :: 'C' :: 'E' :: rest) = ' ' :: unspace rest := rfl

lemma unspace_cons_of (c : Char) (rest : Str)
    (h : ¬ ∃ t, c :: rest = 'S' :: 'P' :: 'A' :: 'C' :: 'E' :: t) :
    unspace (c :: rest) = c :: unspace rest := by
  rw [unspace.eq_def]
  split
  · rename_i heq; exact absurd heq (by simp)
  · rename_i t heq
    exact absurd ⟨t, by rw [heq]⟩ h
  · rename_i c' rest' hne heq
    injection heq with h1 h2
    subst h1; subst h2; rfl

lemma spaceEnc_append (a b : Str) :
    spaceEnc (a ++ b) = spaceEnc a ++ spaceEnc b := by
  induction a with
  | nil => rfl
  | cons c rest ih => simp [spaceEnc, ih]

lemma spaceEnc_eq_self {s : Str} (h : ' ' ∉ s) : spaceEnc s = s := by
  induction s with
  | nil => rfl
  | cons c rest ih =>
    have hc : c ≠ ' ' := fun hc => h (hc ▸ List.mem_cons_self c rest)
    have hr : ' ' ∉ rest := fun hr => h (List.mem_cons_of_mem c hr)
    simp [spaceEnc, hc, ih hr]

lemma spaceEnc_eq_nil {l : Str} (h : spaceEnc l = []) : l = [] := by
  cases l with
  | nil => rfl
  | cons c rest =>
    by_cases hc : c = ' ' <;> simp [spaceEnc, hc, spaceToken] at h

lemma mem_spaceEnc {c : Char} {l : Str} (h : c ∈ spaceEnc l) :
    c ∈ l ∨ c ∈ spaceToken := by
  induction l with
  | nil => simp [spaceEnc] at h
  | cons x rest ih =>
    simp only [spaceEnc, List.mem_append] at h
    rcases h with h | h
    · by_cases hx : x = ' '
      · rw [if_pos hx] at h
        exact Or.inr h
      · rw [if_neg hx] at h
        simp at h
        exact Or.inl (h ▸ List.mem_cons_self x rest)
    · rcases ih h with h' | h'
      · exact Or.inl (List.mem_cons_of_mem x h')
      · exact Or.inr h'

/-- Peeling one non-`'S'` character off the front of an encoded string:
only a space produces an `'S'`, so any other leading character of the
output was a leading character of the input. -/
lemma spaceEnc_cons_ne {c : Char} (hc : c ≠ 'S') {l t : Str}
    (h : spaceEnc l = c :: t) : ∃ l', l = c :: l' ∧ t = spaceEnc l' := by
  cases l with
  | nil => simp [spaceEnc] at h
  | cons x rest =>
    by_cases hx : x = ' '
    · rw [show spaceEnc (x :: rest) = spaceToken ++ spaceEnc rest by
        simp [spaceEnc, hx]] at h
      simp [spaceToken] at h
      exact absurd h.1.symm hc
    · rw [show spaceEnc (x :: rest) = x :: spaceEnc rest by
        simp [spaceEnc, hx]] at h
      injection h with h1 h2
      exact ⟨rest, by rw [h1], h2.symm⟩

/-- Peeling a leading `'S'` off an encoded string: it is either the
start of a substituted space token or a literal `'S'` of the input. -/
lemma spaceEnc_cons_S {l t : Str} (h : spaceEnc l = 'S' :: t) :
    (∃ l', l = ' ' :: l' ∧ t = 'P' :: 'A' :: 'C' :: 'E' :: spaceEnc l') ∨
      (∃ l', l = 'S' :: l' ∧ t = spaceEnc l') := by
  cases l with
  | nil => simp [spaceEnc] at h
  | cons x rest =>
    by_cases hx : x = ' '
    · rw [show spaceEnc (x :: rest) = spaceToken ++ spaceEnc rest by
        simp [spaceEnc, hx]] at h
      simp only [spaceToken, List.cons_append, List.nil_append] at h
      injection h with h1 h2
      exact Or.inl ⟨rest, by rw [hx], h2.symm⟩
    · rw [show spaceEnc (x :: rest) = x :: spaceEnc rest by
        simp [spaceEnc, hx]] at h
      injection h with h1 h2
      exact Or.inr ⟨rest, by rw [h1], h2.symm⟩

/-- Key bijectivity lemma: as long as the reserved token `SPACE` does
not occur verbatim in the input, the decode-side substitution
`replace('SPACE', ' ')` exactly undoes the encode-side substitution
`replace(' ', 'SPACE')`. -/
lemma unspace_spaceEnc {s : Str} (h : ¬ spaceToken <:+: s) :
    unspace (spaceEnc s) = s := by
  induction s with
  | nil => rfl
  | cons c rest ih =>
    have hrest : ¬ spaceToken <:+: rest := fun hr => h (List.infix_cons hr)
    by_cases hc : c = ' '
    · rw [show spaceEnc (c :: rest) =
          'S' :: 'P' :: 'A' :: 'C' :: 'E' :: spaceEnc rest by
        simp [spaceEnc, hc, spaceToken]]
      rw [unspace_token, ih hrest, hc]
    · rw [show spaceEnc (c :: rest) = c :: spaceEnc rest by
        simp [spaceEnc, hc]]
      rw [unspace_cons_of, ih hrest]
      rintro ⟨t, heq⟩
      injection heq with h1 h2
      obtain ⟨r1, hr1, ht1⟩ := spaceEnc_cons_ne (by decide) h2
      obtain ⟨r2, hr2, ht2⟩ := spaceEnc_cons_ne (by decide) ht1.symm
      obtain ⟨r3, hr3, ht3⟩ := spaceEnc_cons_ne (by decide) ht2.symm
      obtain ⟨r4, hr4, _⟩ := spaceEnc_cons_ne (by decide) ht3.symm
      refine h ⟨[], r4, ?_⟩
      subst h1 hr1 hr2 hr3 hr4
      rfl

/-- `replace(' ', 'SPACE')` is injective on strings in which the
reserved token does not occur verbatim. -/
lemma spaceEnc_inj {a b : Str} (ha : ¬ spaceToken <:+: a)
    (hb : ¬ spaceToken <:+: b) (h : spaceEnc a = spaceEnc b) : a = b := by
  have := unspace_spaceEnc ha
  rw [h, unspace_spaceEnc hb] at this
  exact this.symm

/-! ## Reflection of the boolean string searches into order relations -/

lemma isPre_iff {p l : Str} : isPre p l = true ↔ p <+: l := by
  induction p generalizing l with
  | nil => simp [isPre]
  | cons a as ih =>
    cases l with
    | nil => simp [isPre]
    | cons b bs =>
      rw [List.cons_prefix_cons]
      simp [isPre, ih]

lemma strContains_iff {p l : Str} : strContains p l = true ↔ p <:+: l := by
  induction l with
  | nil =>
    constructor
    · intro h
      cases p with
      | nil => exact List.nil_infix
      | cons c cs => simp [strContains, isPre] at h
    · intro h
      rw [List.sublist_nil.mp h.sublist]
      rfl
  | cons c rest ih =>
    rw [List.infix_cons_iff]
    simp only [strContains, Bool.or_eq_true, isPre_iff, ih]

/-- A prefix of `a ++ z :: b` that avoids the character `z` cannot
reach past `a`. -/
lemma pre_avoid_append {z : Char} {p a b : Str} (hz : z ∉ p)
    (h : p <+: a ++ z :: b) : p <+: a := by
  induction p generalizing a with
  | nil => exact List.nil_prefix
  | cons x p' ih =>
    cases a with
    | nil =>
      rw [List.nil_append, List.cons_prefix_cons] at h
      exact absurd (h.1 ▸ List.mem_cons_self x p') hz
    | cons c a' =>
      rw [List.cons_append, List.cons_prefix_cons] at h
      rw [List.cons_prefix_cons]
      exact ⟨h.1, ih (fun hm => hz (List.mem_cons_of_mem x hm)) h.2⟩

/-- An infix of `a ++ z :: b` that avoids the character `z` lies
entirely inside `a` or entirely inside `b`. -/
lemma infix_avoid_append {z : Char} {p a b : Str} (hz : z ∉ p)
    (h : p <:+: a ++ z :: b) : p <:+: a ∨ p <:+: b := by
  induction a with
  | nil =>
    rw [List.nil_append, List.infix_cons_iff] at h
    rcases h with h | h
    · have := pre_avoid_append hz (a := []) (by simpa using h)
      rw [List.prefix_nil.mp this]
      exact Or.inl List.nil_infix
    · exact Or.inr h
  | cons c a' ih =>
    rw [List.cons_append, List.infix_cons_iff] at h
    rcases h with h | h
    · exact Or.inl (pre_avoid_append hz (a := c :: a') (by simpa using h)).isInfix
    · rcases ih h with h' | h'
      · exact Or.inl (List.infix_cons h')
      · exact Or.inr h'

/-- Discard one leading character from an infix relation when the
candidate infix cannot start with that character. -/
lemma infix_cons_elim {p : Str} {c : Char} {l : Str} (h : p <:+: c :: l)
    (hp : p ≠ []) (hne : p.head? ≠ some c) : p <:+: l := by
  rcases List.infix_cons_iff.mp h with h | h
  · cases p with
    | nil => exact absurd rfl hp
    | cons x p' =>
      rw [List.cons_prefix_cons] at h
      exact absurd (by rw [h.1]; rfl) hne
  · exact h

/-! ## Where the two key markers can occur inside encoded keys -/

/-- `SERVICE-` cannot straddle the `HOST-` marker of a host key: if it
occurs in `HOST-<h>` it occurs in `h`. -/
lemma serviceTag_infix_hostKey {h : Str} (hi : serviceTag <:+: hostKey h) :
    serviceTag <:+: h := by
  have h1 : serviceTag <:+: 'O' :: 'S' :: 'T' :: '-' :: h :=
    infix_cons_elim hi (by decide) (by decide)
  have h2 : serviceTag <:+: 'S' :: 'T' :: '-' :: h :=
    infix_cons_elim h1 (by decide) (by decide)
  have h3 : serviceTag <:+: 'T' :: '-' :: h := by
    rcases List.infix_cons_iff.mp h2 with hp | hp
    · rw [show serviceTag = 'S' :: 'E' :: ['R', 'V', 'I', 'C', 'E', '-'] from rfl,
        List.cons_prefix_cons] at hp
      rw [List.cons_prefix_cons] at hp
      exact absurd hp.2.1 (by decide)
    · exact hp
  have h4 : serviceTag <:+: '-' :: h :=
    infix_cons_elim h3 (by decide) (by decide)
  exact infix_cons_elim h4 (by decide) (by decide)

/-- `HOST-` cannot straddle the `SERVICE-` marker: if it occurs in
`SERVICE-<x>` it occurs in `x`. -/
lemma hostTag_infix_serviceTag_append {x : Str}
    (hi : hostTag <:+: serviceTag ++ x) : hostTag <:+: x := by
  have h1 : hostTag <:+: 'E' :: 'R' :: 'V' :: 'I' :: 'C' :: 'E' :: '-' :: x :=
    infix_cons_elim hi (by decide) (by decide)
  have h2 := infix_cons_elim h1 (by decide) (by decide)
  have h3 := infix_cons_elim h2 (by decide) (by decide)
  have h4 := infix_cons_elim h3 (by decide) (by decide)
  have h5 := infix_cons_elim h4 (by decide) (by decide)
  have h6 := infix_cons_elim h5 (by decide) (by decide)
  have h7 := infix_cons_elim h6 (by decide) (by decide)
  exact infix_cons_elim h7 (by decide) (by decide)

/-- The space substitution cannot manufacture a `HOST-` marker: if
`HOST-` occurs in `replace(' ', 'SPACE')` of a string, it already
occurred in that string. -/
lemma hostTag_infix_spaceEnc {x : Str} (hi : hostTag <:+: spaceEnc x) :
    hostTag <:+: x := by
  induction x with
  | nil =>
    rw [show spaceEnc [] = [] from rfl] at hi
    exact absurd (List.sublist_nil.mp hi.sublist) (by decide)
  | cons c rest ih =>
    by_cases hc : c = ' '
    · rw [show spaceEnc (c :: rest) =
          'S' :: 'P' :: 'A' :: 'C' :: 'E' :: spaceEnc rest by
        simp [spaceEnc, hc, spaceToken]] at hi
      have h1 := infix_cons_elim hi (by decide) (by decide)
      have h2 := infix_cons_elim h1 (by decide) (by decide)
      have h3 := infix_cons_elim h2 (by decide) (by decide)
      have h4 := infix_cons_elim h3 (by decide) (by decide)
      have h5 := infix_cons_elim h4 (by decide) (by decide)
      exact List.infix_cons (ih h5)
    · rw [show spaceEnc (c :: rest) = c :: spaceEnc rest by
        simp [spaceEnc, hc]] at hi
      rcases List.infix_cons_iff.mp hi with hp | hp
      · rw [show hostTag = 'H' :: ['O', 'S', 'T', '-'] from rfl,
          List.cons_prefix_cons] at hp
        obtain ⟨hceq, hp⟩ := hp
        obtain ⟨t, ht⟩ := hp
        rw [show (['O', 'S', 'T', '-'] : Str) ++ t = 'O' :: 'S' :: 'T' :: '-' :: t
          from rfl] at ht
        obtain ⟨r1, hr1, ht1⟩ := spaceEnc_cons_ne (by decide) ht.symm
        rcases spaceEnc_cons_S ht1.symm with ⟨r2, hr2, ht2⟩ | ⟨r2, hr2, ht2⟩
        · injection ht2 with hbad _
          exact absurd hbad (by decide)
        · obtain ⟨r3, hr3, ht3⟩ := spaceEnc_cons_ne (by decide) ht2.symm
          obtain ⟨r4, hr4, _⟩ := spaceEnc_cons_ne (by decide) ht3.symm
          refine ⟨[], r4, ?_⟩
          subst hceq hr1 hr2 hr3 hr4
          rfl
      · exact List.infix_cons (ih hp)

/-! ## Structure of encoded keys -/

lemma splitFirstComma_append {a b : Str} (h : ',' ∉ a) :
    splitFirstComma (a ++ ',' :: b) = some (a, b) := by
  induction a with
  | nil => simp [splitFirstComma]
  | cons c rest ih =>
    have hc : c ≠ ',' := fun hc => h (hc ▸ List.mem_cons_self c rest)
    have hr : ',' ∉ rest := fun hr => h (List.mem_cons_of_mem c hr)
    simp [splitFirstComma, hc, ih hr]

lemma append_comma_inj {a b c e : Str} (ha : ',' ∉ a) (hc : ',' ∉ c)
    (h : a ++ ',' :: b = c ++ ',' :: e) : a = c ∧ b = e := by
  induction a generalizing c with
  | nil =>
    cases c with
    | nil => simpa using h
    | cons x c' =>
      rw [List.nil_append, List.cons_append] at h
      injection h with h1 _
      exact absurd (h1 ▸ List.mem_cons_self x c') hc
  | cons x a' ih =>
    cases c with
    | nil =>
      rw [List.nil_append, List.cons_append] at h
      injection h with h1 _
      exact absurd (h1.symm ▸ List.mem_cons_self x a') ha
    | cons y c' =>
      rw [List.cons_append, List.cons_append] at h
      injection h with h1 h2
      have := ih (fun hm => ha (List.mem_cons_of_mem x hm))
        (fun hm => hc (List.mem_cons_of_mem y hm)) h2
      exact ⟨by rw [h1, this.1], this.2⟩

lemma hostKey_inj {a b : Str} (h : hostKey a = hostKey b) : a = b :=
  List.append_cancel_left h

/-- An encoded service key is the `SERVICE-` marker, the encoded host
name, a comma, and the encoded description. -/
lemma serviceKey_eq (h d : Str) :
    serviceKey h d = serviceTag ++ (spaceEnc h ++ ',' :: spaceEnc d) := by
  unfold serviceKey
  rw [show serviceTag ++ h ++ [','] ++ d = serviceTag ++ (h ++ [','] ++ d) by
    simp [List.append_assoc]]
  rw [spaceEnc_append, spaceEnc_append, spaceEnc_append]
  rw [show spaceEnc serviceTag = serviceTag from rfl,
    show spaceEnc [','] = [','] from rfl]
  simp [List.append_assoc]

lemma serviceKey_eq2 (h d : Str) :
    serviceKey h d = serviceTag ++ spaceEnc (h ++ ',' :: d) := by
  rw [serviceKey_eq, spaceEnc_append,
    show spaceEnc (',' :: d) = ',' :: spaceEnc d by simp [spaceEnc]]

lemma comma_not_mem_spaceEnc {h : Str} (hh : ',' ∉ h) : ',' ∉ spaceEnc h := by
  intro hm
  rcases mem_spaceEnc hm with hm | hm
  · exact hh hm
  · exact absurd hm (by decide)

/-- Host keys and service keys never coincide (distinct markers). -/
lemma hostKey_ne_serviceKey (a h d : Str) : hostKey a ≠ serviceKey h d := by
  intro he
  rw [serviceKey_eq] at he
  rw [show hostKey a = 'H' :: ('O' :: 'S' :: 'T' :: '-' :: a) from rfl] at he
  rw [show serviceTag ++ (spaceEnc h ++ ',' :: spaceEnc d) =
    'S' :: ('E' :: 'R' :: 'V' :: 'I' :: 'C' :: 'E' :: '-' ::
      (spaceEnc h ++ ',' :: spaceEnc d)) from rfl] at he
  injection he with h1 _
  exact absurd h1 (by decide)

/-! ## Behaviour of the two `re.search` / `re.match` pairs -/

lemma matchHost_hostKey (h : Str) : matchHost (hostKey h) = some h := by
  unfold matchHost hostKey
  rw [if_pos (isPre_iff.mpr ⟨h, rfl⟩)]
  rw [show (5 : Nat) = hostTag.length from rfl, List.drop_left]

lemma searchHost_hostKey (h : Str) : searchHost (hostKey h) = true := by
  unfold searchHost hostKey hostTag
  simp only [List.cons_append, strContains, Bool.or_eq_true]
  exact Or.inl (isPre_iff.mpr ⟨h, rfl⟩)

lemma classifyKey_hostKey (h : Str) : classifyKey (hostKey h) = .hostK h := by
  unfold classifyKey
  rw [searchHost_hostKey, if_pos rfl, matchHost_hostKey]

/-- The anchored service match on a well-formed service key, for a
nonempty comma-free host name: the two groups are the encoded host
name and the encoded description. -/
lemma matchServiceAt_serviceKey {h : Str} (d : Str) (hne : h ≠ [])
    (hc : ',' ∉ h) :
    matchServiceAt (serviceKey h d) = some (spaceEnc h, spaceEnc d) := by
  unfold matchServiceAt
  rw [serviceKey_eq]
  rw [if_pos (isPre_iff.mpr ⟨spaceEnc h ++ ',' :: spaceEnc d, rfl⟩)]
  rw [show (8 : Nat) = serviceTag.length from rfl, List.drop_left]
  rw [splitFirstComma_append (comma_not_mem_spaceEnc hc)]
  have : spaceEnc h ≠ [] := fun he => hne (spaceEnc_eq_nil he)
  simp [this]

lemma isSome_matchServiceAt_searchService {k : Str}
    (h : (matchServiceAt k).isSome) : searchService k = true := by
  cases k with
  | nil => exact h
  | cons c rest => simp [searchService, h]

/-- If `matchServiceAt` succeeds somewhere in `k` then the `SERVICE-`
marker occurs in `k`. -/
lemma serviceTag_occurs_of_searchService {k : Str}
    (h : searchService k = true) :
    serviceTag <:+: k := by
  induction k with
  | nil => simp [searchService, matchServiceAt, isPre] at h
  | cons c rest ih =>
    rw [searchService, Bool.or_eq_true] at h
    rcases h with h | h
    · unfold matchServiceAt at h
      by_cases hp : isPre serviceTag (c :: rest)
      · exact (isPre_iff.mp hp).isInfix
      · simp [hp] at h
    · exact List.infix_cons (ih h)

lemma searchService_eq_false_of_no_marker {k : Str}
    (h : ¬ serviceTag <:+: k) : searchService k = false := by
  cases hs : searchService k
  · rfl
  · exact absurd (serviceTag_occurs_of_searchService hs) h

lemma searchHost_eq_false_of_no_marker {k : Str}
    (h : ¬ hostTag <:+: k) : searchHost k = false := by
  cases hs : searchHost k
  · rfl
  · exact absurd (strContains_iff.mp hs) h

/-! ## Store lemmas -/

section StoreLemmas

variable {β : Type}

lemma sget_sset_self (st : Store β) (k : Str) (v : β) :
    sget (sset st k v) k = some v := by
  induction st with
  | nil => simp [sset, sget]
  | cons p rest ih =>
    by_cases hp : p.1 = k
    · simp [sset, hp, sget]
    · simp [sset, hp, sget, ih]

lemma sget_sset_ne (st : Store β) {k k' : Str} (v : β) (h : k' ≠ k) :
    sget (sset st k' v) k = sget st k := by
  induction st with
  | nil => simp [sset, sget, h]
  | cons p rest ih =>
    by_cases hp : p.1 = k'
    · simp [sset, hp, sget, h]
    · simp [sset, hp, sget, ih]

lemma sget_sdel_self (st : Store β) (k : Str) : sget (sdel st k) k = none := by
  induction st with
  | nil => simp [sdel, sget]
  | cons p rest ih =>
    by_cases hp : p.1 = k
    · simp [sdel, hp, ih]
    · simp [sdel, hp, sget, ih]

lemma sget_sdel_ne (st : Store β) {k k' : Str} (h : k' ≠ k) :
    sget (sdel st k') k = sget st k := by
  induction st with
  | nil => simp [sdel, sget]
  | cons p rest ih =>
    by_cases hp : p.1 = k'
    · rw [show sdel (p :: rest) k' = sdel rest k' by simp [sdel, hp], ih]
      rw [show sget (p :: rest) k = sget rest k by
        simp [sget, show p.1 ≠ k from hp ▸ h]]
    · rw [show sdel (p :: rest) k' = p :: sdel rest k' by simp [sdel, hp]]
      by_cases hk : p.1 = k
      · simp [sget, hk]
      · simp [sget, hk, ih]

lemma sget_foldl_sset_of_not_mem {ws : List (Str × β)} {st : Store β} {k : Str}
    (h : k ∉ ws.map Prod.fst) :
    sget (ws.foldl (fun s kv => sset s kv.1 kv.2) st) k = sget st k := by
  induction ws generalizing st with
  | nil => rfl
  | cons kv rest ih =>
    simp only [List.map_cons, List.mem_cons, not_or] at h
    rw [List.foldl_cons, ih h.2, sget_sset_ne st kv.2 (fun he => h.1 he.symm)]

lemma sget_foldl_sset_of_nodup {ws : List (Str × β)} {st : Store β}
    (h : (ws.map Prod.fst).Nodup) {kv : Str × β} (hm : kv ∈ ws) :
    sget (ws.foldl (fun s kv => sset s kv.1 kv.2) st) kv.1 = some kv.2 := by
  induction ws generalizing st with
  | nil => cases hm
  | cons p rest ih =>
    simp only [List.map_cons, List.nodup_cons] at h
    rcases List.mem_cons.mp hm with rfl | hm'
    · rw [List.foldl_cons,
        sget_foldl_sset_of_not_mem (fun hmem => h.1 hmem),
        sget_sset_self]
    · exact List.foldl_cons _ _ ▸ ih h.2 hm'

lemma sget_foldl_sdel {ks : List Str} {st : Store β} {k : Str} :
    sget (ks.foldl sdel st) k = if k ∈ ks then none else sget st k := by
  induction ks generalizing st with
  | nil => simp
  | cons k' rest ih =>
    rw [List.foldl_cons, ih]
    by_cases hk : k ∈ rest
    · simp [hk]
    · by_cases he : k = k'
      · simp [hk, he, sget_sdel_self]
      · simp [hk, he, sget_sdel_ne st (fun h => he h.symm)]

end StoreLemmas

/-! ## Behaviour of the save and load loops -/

section HookLemmas

variable {α β : Type}

/-- The save loop under a failure oracle: if the first `i` set calls
succeed and the `i`-th fails, the loop raises, leaving exactly the
first `i` writes applied and the rest unwritten. -/
lemma runWrites_stops (fails : Nat → Bool) (ws : List (Str × β))
    (st : Store β) (n i : Nat) (hi : i < ws.length)
    (hprev : ∀ j, j < i → fails (n + j) = false) (hfail : fails (n + i) = true) :
    runWrites fails ws n st =
      .error ((ws.take i).foldl (fun s kv => sset s kv.1 kv.2) st) := by
  induction ws generalizing n st i with
  | nil => cases hi
  | cons kv rest ih =>
    cases i with
    | zero =>
      rw [runWrites, if_pos (by simpa using hfail)]
      rfl
    | succ i' =>
      have h0 : fails n = false := by simpa using hprev 0 (Nat.succ_pos i')
      rw [runWrites, if_neg (by simp [h0])]
      rw [ih _ _ i' (by simpa using hi)
        (fun j hj => by
          have := hprev (j + 1) (Nat.succ_lt_succ hj)
          rwa [show n + (j + 1) = n + 1 + j by omega] at this)
        (by rwa [show n + 1 + i' = n + (i' + 1) by omega])]
      rfl

/-- The host-loading loop when every looked-up key is present and its
payload decodes: the accumulated output is exactly the input records,
in order. -/
lemma loadHosts_acc (loadsE : β → Option α) (st : Store β)
    (hostsL : List (Str × α)) (acc : Store α)
    (hget : ∀ p ∈ hostsL, ∃ b, sget st (hostKey p.1) = some b ∧ loadsE b = some p.2) :
    loadHosts loadsE st (hostsL.map Prod.fst) acc = some (acc ++ hostsL) := by
  induction hostsL generalizing acc with
  | nil => simp [loadHosts]
  | cons p rest ih =>
    obtain ⟨b, hb, hl⟩ := hget p (List.mem_cons_self p rest)
    rw [List.map_cons, loadHosts]
    simp only [hb, hl]
    rw [ih (acc ++ [(p.1, p.2)]) (fun q hq => hget q (List.mem_cons_of_mem p hq))]
    simp

/-- The service-loading loop under the same conditions. -/
lemma loadServices_acc (loadsE : β → Option α) (st : Store β)
    (servicesL : List ((Str × Str) × α)) (acc : List ((Str × Str) × α))
    (hget : ∀ p ∈ servicesL,
      ∃ b, sget st (serviceKey p.1.1 p.1.2) = some b ∧ loadsE b = some p.2) :
    loadServices loadsE st (servicesL.map Prod.fst) acc = some (acc ++ servicesL) := by
  induction servicesL generalizing acc with
  | nil => simp [loadServices]
  | cons p rest ih =>
    obtain ⟨b, hb, hl⟩ := hget p (List.mem_cons_self p rest)
    rw [List.map_cons, loadServices]
    simp only [hb, hl]
    rw [ih (acc ++ [(p.1, p.2)]) (fun q hq => hget q (List.mem_cons_of_mem p hq))]
    simp

lemma sget_append_one (acc : Store α) (m : Str) (v : α) (k : Str)
    (h : sget acc k = none) :
    sget (acc ++ [(m, v)]) k = if m = k then some v else none := by
  induction acc with
  | nil => simp [sget]
  | cons p rest ih =>
    by_cases hp : p.1 = k
    · simp [sget, hp] at h
    · rw [show sget (p :: rest) k = sget rest k by simp [sget, hp]] at h
      rw [List.cons_append,
        show sget (p :: (rest ++ [(m, v)])) k = sget (rest ++ [(m, v)]) k by
          simp [sget, hp],
        ih h]

/-- The host-loading loop succeeds whenever every *present* payload
decodes — missing keys are simply skipped — and a host whose key is
absent from the store never acquires an entry in the output. -/
lemma loadHosts_missing (loadsE : β → Option α) (st : Store β)
    (names : List Str) (acc : Store α) (n : Str)
    (habs : sget st (hostKey n) = none)
    (hsucc : ∀ m ∈ names, ∀ b, sget st (hostKey m) = some b → (loadsE b).isSome = true)
    (hacc : sget acc n = none) :
    ∃ m, loadHosts loadsE st names acc = some m ∧ sget m n = none := by
  induction names generalizing acc with
  | nil => exact ⟨acc, rfl, hacc⟩
  | cons nm rest ih =>
    cases hget : sget st (hostKey nm) with
    | none =>
      rw [loadHosts, hget]
      exact ih acc (fun m hm => hsucc m (List.mem_cons_of_mem nm hm)) hacc
    | some b =>
      have hs := hsucc nm (List.mem_cons_self nm rest) b hget
      obtain ⟨v, hv⟩ := Option.isSome_iff_exists.mp hs
      rw [loadHosts]
      simp only [hget, hv]
      refine ih (acc ++ [(nm, v)])
        (fun m hm => hsucc m (List.mem_cons_of_mem nm hm)) ?_
      rw [sget_append_one acc nm v n hacc]
      have hne : nm ≠ n := fun he => by rw [he, habs] at hget; cases hget
      simp [hne]

/-- Frame property of the reconciliation loop: whatever happens
(including a crash or a delete failure part-way), the store it leaves
behind agrees with the initial store on every key, except that some
keys classified as outdated may have been deleted. -/
lemma reconcileGo_frame (delFails : Str → Bool) (dh : List Str)
    (ds : List (Str × Str)) (ks : List Str) (st : Store β) (k : Str) :
    sget (exStore (reconcileGo delFails dh ds ks st)) k = sget st k ∨
      (sget (exStore (reconcileGo delFails dh ds ks st)) k = none ∧
        OutdatedKey dh ds k) := by
  induction ks generalizing st with
  | nil => exact Or.inl rfl
  | cons k' rest ih =>
    rw [reconcileGo]
    have step : ∀ hout : OutdatedKey dh ds k',
        sget (exStore (if delFails k' then Except.error st
          else reconcileGo delFails dh ds rest (sdel st k'))) k = sget st k ∨
        (sget (exStore (if delFails k' then Except.error st
          else reconcileGo delFails dh ds rest (sdel st k'))) k = none ∧
          OutdatedKey dh ds k) := by
      intro hout
      by_cases hf : delFails k'
      · rw [if_pos hf]; exact Or.inl rfl
      · rw [if_neg hf]
        rcases ih (sdel st k') with h1 | h1
        · by_cases hk : k = k'
          · subst hk
            exact Or.inr ⟨by rw [h1, sget_sdel_self], hout⟩
          · exact Or.inl (by rw [h1, sget_sdel_ne st (fun he => hk he.symm)])
        · exact Or.inr h1
    cases hc : classifyKey k' with
    | hostK h =>
      by_cases hm : h ∈ dh
      · simp only [hm, if_pos]
        exact ih st
      · simp only [hm, if_neg, ite_false]
        exact step (Or.inl ⟨h, hc, hm⟩)
    | serviceK h d =>
      by_cases hm : (h, d) ∈ ds
      · simp only [hm, if_pos]
        exact ih st
      · simp only [hm, if_neg, ite_false]
        exact step (Or.inr ⟨h, d, hc, hm⟩)
    | invalid => exact ih st
    | crash => exact Or.inl rfl

end HookLemmas

/-! ## Claim theorems -/

/-- C1, counterexample: the claim fails for the pair `("a b", "d")`,
in which the reserved token `SPACE` does not occur verbatim: the
decode step restores spaces only in the service description (module.py
line 133), so the host name comes back as `"aSPACEb"`. -/
theorem c1_roundtrip_cex :
    strContains spaceToken "a b".toList = false ∧
    strContains spaceToken "d".toList = false ∧
    decodeServiceKey (serviceKey "a b".toList "d".toList) ≠
      some ("a b".toList, "d".toList) := by
  decide

/-- C1 as amended: for every service identity whose host name is
nonempty and contains neither a space nor a comma, and whose
description does not contain the reserved token `SPACE` verbatim,
decoding the encoded service key recovers the identity exactly (the
description may freely contain spaces and commas). -/
theorem c1_roundtrip (h d : Str) (hne : h ≠ []) (hsp : ' ' ∉ h)
    (hcm : ',' ∉ h) (hd : strContains spaceToken d = false) :
    decodeServiceKey (serviceKey h d) = some (h, d) := by
  have hdi : ¬ spaceToken <:+: d := fun hi => by
    have ht := strContains_iff.mpr hi
    rw [hd] at ht
    exact absurd ht (by decide)
  unfold decodeServiceKey
  rw [matchServiceAt_serviceKey d hne hcm]
  simp [spaceEnc_eq_self hsp, unspace_spaceEnc hdi]

/-- C1 witness: the spec's own concrete scenario,
`("web01", "CPU load")`. -/
theorem c1_roundtrip_witness :
    decodeServiceKey (serviceKey "web01".toList "CPU load".toList) =
      some ("web01".toList, "CPU load".toList) :=
  c1_roundtrip _ _ (by decide) (by decide) (by decide) (by decide)

/-- C2: the reconciliation scan is *not* total: on a store holding the
key `"fooHOST-bar"` — which matches neither prefix pattern, but does
contain `HOST-` away from the start — `re.search(r'HOST-', key)`
succeeds while the anchored `re.match(r'HOST-(.*)', key)` returns
`None`, so `.groups()` raises `AttributeError` before anything is
yielded: the pass aborts with the store untouched instead of skipping
the key. -/
theorem c2_scan_crash :
    reconcile (fun _ => false) ["a".toList] []
      [("fooHOST-bar".toList, (0 : Nat))] =
      .error [("fooHOST-bar".toList, 0)] := by
  rfl

/-- C3, counterexample: the host name `"SERVICE-a,b"` produces the
host key `"HOST-SERVICE-a,b"`, which matches both the Host check
`re.search(r'HOST-', key)` and the Service check
`re.search(r'SERVICE-([^,]+),(.*)', key)` of the reconciliation
scan. -/
theorem c3_separation_cex :
    searchHost (hostKey "SERVICE-a,b".toList) = true ∧
    searchService (hostKey "SERVICE-a,b".toList) = true := by
  decide

/-- C3 as amended: every encoded key matches its own kind's check, and
matches the other kind's check only when an identity embeds the other
kind's pattern: a host key for a host name with no embedded
`SERVICE-` marker never matches the Service check, and a service key
for a nonempty, comma-free host name whose components contain no
`HOST-` marker never matches the Host check.  (Without those
provisos a key can match both checks, as the counterexample shows.) -/
theorem c3_separation (h hn d : Str)
    (h1 : strContains serviceTag h = false) (h2 : hn ≠ []) (h3 : ',' ∉ hn)
    (h4 : strContains hostTag hn = false)
    (h5 : strContains hostTag d = false) :
    searchHost (hostKey h) = true ∧
    searchService (hostKey h) = false ∧
    searchService (serviceKey hn d) = true ∧
    searchHost (serviceKey hn d) = false := by
  refine ⟨searchHost_hostKey h, ?_, ?_, ?_⟩
  · refine searchService_eq_false_of_no_marker (fun hi => ?_)
    have ht := strContains_iff.mpr (serviceTag_infix_hostKey hi)
    rw [h1] at ht
    exact absurd ht (by decide)
  · refine isSome_matchServiceAt_searchService ?_
    rw [matchServiceAt_serviceKey d h2 h3]
    rfl
  · refine searchHost_eq_false_of_no_marker (fun hi => ?_)
    rw [serviceKey_eq2] at hi
    have hx := hostTag_infix_spaceEnc (hostTag_infix_serviceTag_append hi)
    rcases infix_avoid_append (by decide) hx with hh | hh
    · have ht := strContains_iff.mpr hh
      rw [h4] at ht
      exact absurd ht (by decide)
    · have ht := strContains_iff.mpr hh
      rw [h5] at ht
      exact absurd ht (by decide)

/-- C3 witness: plain identities `"x"`, `("a", "b")`. -/
theorem c3_separation_witness :
    searchHost (hostKey "x".toList) = true ∧
    searchService (hostKey "x".toList) = false ∧
    searchService (serviceKey "a".toList "b".toList) = true ∧
    searchHost (serviceKey "a".toList "b".toList) = false :=
  c3_separation _ _ _ (by decide) (by decide) (by decide) (by decide) (by decide)

/-- C4, counterexample: the two distinct service identities
`("a,b", "d")` and `("a", "b,d")` — neither containing the reserved
token — encode to the same key `"SERVICE-a,b,d"`, because the comma
separating host name and description is not escaped. -/
theorem c4_injective_cex :
    serviceKey "a,b".toList "d".toList = serviceKey "a".toList "b,d".toList ∧
    ("a,b".toList, "d".toList) ≠ ("a".toList, "b,d".toList) ∧
    strContains spaceToken "a,b".toList = false ∧
    strContains spaceToken "d".toList = false ∧
    strContains spaceToken "a".toList = false ∧
    strContains spaceToken "b,d".toList = false := by
  decide

/-- C4 as amended: host-key encoding is injective on all host names,
and service-key encoding is injective on service identities whose host
names contain no comma and whose components do not contain the
reserved token `SPACE` verbatim.  (With a comma in a host name the
encoding collides, as the counterexample shows.) -/
theorem c4_injective :
    (∀ n1 n2 : Str, n1 ≠ n2 → hostKey n1 ≠ hostKey n2) ∧
    (∀ h1 d1 h2 d2 : Str, ',' ∉ h1 → ',' ∉ h2 →
      strContains spaceToken h1 = false → strContains spaceToken d1 = false →
      strContains spaceToken h2 = false → strContains spaceToken d2 = false →
      (h1, d1) ≠ (h2, d2) → serviceKey h1 d1 ≠ serviceKey h2 d2) := by
  constructor
  · exact fun n1 n2 hne he => hne (hostKey_inj he)
  · intro h1 d1 h2 d2 hc1 hc2 hs1 hsd1 hs2 hsd2 hne hkey
    have notSp : ∀ (h d : Str), strContains spaceToken h = false →
        strContains spaceToken d = false → ¬ spaceToken <:+: (h ++ ',' :: d) := by
      intro h d hh hd hi
      rcases infix_avoid_append (by decide) hi with hx | hx
      · have ht := strContains_iff.mpr hx
        rw [hh] at ht
        exact absurd ht (by decide)
      · have ht := strContains_iff.mpr hx
        rw [hd] at ht
        exact absurd ht (by decide)
    rw [serviceKey_eq2, serviceKey_eq2] at hkey
    have henc := List.append_cancel_left hkey
    have heq := spaceEnc_inj (notSp h1 d1 hs1 hsd1) (notSp h2 d2 hs2 hsd2) henc
    have hsplit := append_comma_inj hc1 hc2 heq
    exact hne (by rw [hsplit.1, hsplit.2])

/-- C4 witness: distinct host names give distinct host keys and
distinct comma-free service identities give distinct service keys. -/
theorem c4_injective_witness :
    hostKey "a".toList ≠ hostKey "b".toList ∧
    serviceKey "a".toList "b".toList ≠ serviceKey "a".toList "c".toList :=
  ⟨c4_injective.1 _ _ (by decide),
    c4_injective.2 _ _ _ _ (by decide) (by decide) (by decide) (by decide)
      (by decide) (by decide) (by decide)⟩

/-- C5, counterexample: for the snapshot with no hosts and the two
(picklable, here identity-encoded) services `("a,b","d") ↦ 1` and
`("a","b,d") ↦ 2`, saving against an empty store and loading the same
identities does not return the original snapshot: both identities
encode to the key `"SERVICE-a,b,d"`, so the second write overwrites
the first and both loads return `2`. -/
theorem c5_save_load_cex :
    loadServices (fun b => some b)
      (hook_save_retention (fun v : Nat => v) []
        [(("a,b".toList, "d".toList), 1), (("a".toList, "b,d".toList), 2)] [])
      ([(("a,b".toList, "d".toList), 1),
        (("a".toList, "b,d".toList), 2)].map Prod.fst) [] ≠
      some [(("a,b".toList, "d".toList), 1), (("a".toList, "b,d".toList), 2)] := by
  decide

/-- C5 as amended: save-then-load round-trips every snapshot whose
encoded keys do not collide: host names are pairwise distinct (dict
keys) and the encoded service keys of the distinct service identities
are pairwise distinct — which holds in particular when host names
contain no comma and no component contains the reserved token.  Then
saving against an empty store and loading the same identities yields
exactly the original snapshot. -/
theorem c5_save_load {α β : Type} (dumps : α → β) (loads : β → α)
    (hround : ∀ v, loads (dumps v) = v) (hosts : List (Str × α))
    (services : List ((Str × Str) × α))
    (hh : (hosts.map Prod.fst).Nodup)
    (hs : (services.map (fun p => serviceKey p.1.1 p.1.2)).Nodup) :
    loadHosts (fun b => some (loads b))
        (hook_save_retention dumps hosts services []) (hosts.map Prod.fst) [] =
      some hosts ∧
    loadServices (fun b => some (loads b))
        (hook_save_retention dumps hosts services [])
        (services.map Prod.fst) [] = some services := by
  have hkeys : ((saveWrites dumps hosts services).map Prod.fst).Nodup := by
    rw [show (saveWrites dumps hosts services).map Prod.fst =
        hosts.map (fun p => hostKey p.1) ++
          services.map (fun p => serviceKey p.1.1 p.1.2) by
      simp only [saveWrites, List.map_append, List.map_map]
      rfl]
    refine List.Nodup.append ?_ hs ?_
    · rw [show hosts.map (fun p => hostKey p.1) =
          (hosts.map Prod.fst).map hostKey by simp]
      exact hh.map (fun a b hab => hostKey_inj hab)
    · intro a ha hb
      rw [List.mem_map] at ha hb
      obtain ⟨p, _, hp⟩ := ha
      obtain ⟨q, _, hq⟩ := hb
      exact hostKey_ne_serviceKey p.1 q.1.1 q.1.2 (hp.trans hq.symm)
  have hget_host : ∀ p ∈ hosts,
      ∃ b, sget (hook_save_retention dumps hosts services []) (hostKey p.1) =
        some b ∧ (fun b => some (loads b)) b = some p.2 := by
    intro p hp
    refine ⟨dumps p.2, ?_, by simp [hround p.2]⟩
    have hm : (hostKey p.1, dumps p.2) ∈ saveWrites dumps hosts services :=
      List.mem_append_left _ (List.mem_map.mpr ⟨p, hp, rfl⟩)
    exact sget_foldl_sset_of_nodup hkeys hm
  have hget_svc : ∀ p ∈ services,
      ∃ b, sget (hook_save_retention dumps hosts services [])
          (serviceKey p.1.1 p.1.2) = some b ∧
        (fun b => some (loads b)) b = some p.2 := by
    intro p hp
    refine ⟨dumps p.2, ?_, by simp [hround p.2]⟩
    have hm : (serviceKey p.1.1 p.1.2, dumps p.2) ∈ saveWrites dumps hosts services :=
      List.mem_append_right _ (List.mem_map.mpr ⟨p, hp, rfl⟩)
    exact sget_foldl_sset_of_nodup hkeys hm
  constructor
  · rw [loadHosts_acc _ _ hosts [] hget_host]
    rfl
  · rw [loadServices_acc _ _ services [] hget_svc]
    rfl

/-- C5 witness: the spec's concrete scenario — one host `web01`, one
service `(web01, CPU load)`, identity payload encoding. -/
theorem c5_save_load_witness :
    loadHosts (fun b => some b)
        (hook_save_retention (fun v : Nat => v) [("web01".toList, 7)]
          [(("web01".toList, "CPU load".toList), 9)] [])
        ([("web01".toList, 7)].map Prod.fst) [] = some [("web01".toList, 7)] ∧
    loadServices (fun b => some b)
        (hook_save_retention (fun v : Nat => v) [("web01".toList, 7)]
          [(("web01".toList, "CPU load".toList), 9)] [])
        ([(("web01".toList, "CPU load".toList), 9)].map Prod.fst) [] =
      some [(("web01".toList, "CPU load".toList), 9)] :=
  c5_save_load (fun v : Nat => v) (fun v => v) (fun _ => rfl) _ _
    (by decide) (by decide)

/-- C6: missing-key tolerance of the Load pass.  For any known host
whose encoded key is absent from the store, provided every payload
that *is* present for a known host decodes, the host loop succeeds
and its output contains no entry for that host. -/
theorem c6_missing_key {α β : Type} (loadsE : β → Option α) (st : Store β)
    (names : List Str) (n : Str) (_hmem : n ∈ names)
    (habs : sget st (hostKey n) = none)
    (hdec : ∀ m ∈ names, ∀ b, sget st (hostKey m) = some b →
      (loadsE b).isSome = true) :
    ∃ m, loadHosts loadsE st names [] = some m ∧ sget m n = none :=
  loadHosts_missing loadsE st names [] n habs hdec rfl

/-- C6 witness: loading the single known host `h` from an empty store
succeeds and yields no entry for `h`. -/
theorem c6_missing_key_witness :
    ∃ m, loadHosts (fun b : Nat => some b) ([] : Store Nat)
        ["h".toList] [] = some m ∧ sget m "h".toList = none :=
  c6_missing_key _ _ _ _ (by decide) rfl
    (fun m _ b hb => by simp [sget] at hb)

/-- C7: if the `i`-th `set` call of the Save pass raises, the store
error propagates out of `hook_save_retention` and exactly the writes
before position `i` have been applied — none of the remaining writes
is performed. -/
theorem c7_save_abort {α β : Type} (fails : Nat → Bool) (dumps : α → β)
    (hosts : List (Str × α)) (services : List ((Str × Str) × α))
    (st : Store β) (i : Nat)
    (hi : i < (saveWrites dumps hosts services).length)
    (hprev : ∀ j, j < i → fails j = false) (hfail : fails i = true) :
    hook_save_retention_f fails dumps hosts services st =
      .error (((saveWrites dumps hosts services).take i).foldl
        (fun s kv => sset s kv.1 kv.2) st) := by
  unfold hook_save_retention_f
  exact runWrites_stops fails _ st 0 i hi
    (fun j hj => by rw [Nat.zero_add]; exact hprev j hj)
    (by rwa [Nat.zero_add])

/-- C7 witness: with two host writes and a `set` oracle failing on the
second call, the pass raises after applying only the first write. -/
theorem c7_save_abort_witness :
    hook_save_retention_f (fun n => decide (n = 1)) (fun v : Nat => v)
      [("a".toList, 0), ("b".toList, 1)] [] [] =
      .error (((saveWrites (fun v : Nat => v)
          [("a".toList, 0), ("b".toList, 1)] []).take 1).foldl
        (fun s kv => sset s kv.1 kv.2) []) :=
  c7_save_abort _ _ _ _ _ 1 (by decide)
    (fun j hj => by
      have hj0 : j = 0 := by omega
      subst hj0
      rfl)
    rfl

/-- C8: a failing delete is *not* skipped.  With two stale host keys
`HOST-x`, `HOST-y` and a store whose delete of `HOST-x` raises, the
error escapes `hook_load_retention` (there is no `try` around
`self.client.delete`, module.py line 177) and the remaining stale key
`HOST-y` is never processed: it is still in the store afterwards. -/
theorem c8_delete_error_aborts :
    hook_load_retention (fun b : Nat => some b)
        (fun k => decide (k = hostKey "x".toList)) [] []
        [(hostKey "x".toList, 0), (hostKey "y".toList, 1)] =
      .recError [(hostKey "x".toList, 0), (hostKey "y".toList, 1)] ∧
    sget [(hostKey "x".toList, 0), (hostKey "y".toList, 1)]
        (hostKey "y".toList) = some 1 := by
  constructor
  · rfl
  · rfl

/-- C9: reconciliation safety.  After saving hosts `A` and `B` into an
empty store, a Load-plus-reconcile pass that only knows `A` deletes
`B`'s key and nothing else: the pass succeeds, `HOST-<B>` is gone and
`HOST-<A>` still holds its saved payload. -/
theorem c9_reconcile_safety {α β : Type} (dumps : α → β) (loadsE : β → Option α)
    (A B : Str) (vA vB : α) (hne : A ≠ B) (hl : loadsE (dumps vA) = some vA) :
    hook_load_retention loadsE (fun _ => false) [A] []
        (hook_save_retention dumps [(A, vA), (B, vB)] [] []) =
      .ok [(A, vA)] []
        (sdel (hook_save_retention dumps [(A, vA), (B, vB)] [] []) (hostKey B)) ∧
    sget (sdel (hook_save_retention dumps [(A, vA), (B, vB)] [] []) (hostKey B))
        (hostKey B) = none ∧
    sget (sdel (hook_save_retention dumps [(A, vA), (B, vB)] [] []) (hostKey B))
        (hostKey A) = some (dumps vA) := by
  have hK : hostKey A ≠ hostKey B := fun he => hne (hostKey_inj he)
  have hst : hook_save_retention dumps [(A, vA), (B, vB)] [] [] =
      [(hostKey A, dumps vA), (hostKey B, dumps vB)] := by
    simp [hook_save_retention, saveWrites, sset, hK]
  rw [hst]
  have hload : loadHosts loadsE
      [(hostKey A, dumps vA), (hostKey B, dumps vB)] [A] [] = some [(A, vA)] := by
    rw [loadHosts]
    rw [show sget [(hostKey A, dumps vA), (hostKey B, dumps vB)] (hostKey A) =
        some (dumps vA) by simp [sget]]
    simp only [hl]
    rfl
  have hrec : reconcileGo (fun _ => false) [A] [] [hostKey A, hostKey B]
      [(hostKey A, dumps vA), (hostKey B, dumps vB)] =
      .ok (sdel [(hostKey A, dumps vA), (hostKey B, dumps vB)] (hostKey B)) := by
    simp [reconcileGo, classifyKey_hostKey, Ne.symm hne]
  refine ⟨?_, sget_sdel_self _ _, ?_⟩
  · unfold hook_load_retention
    rw [hload]
    rw [show loadServices loadsE
        [(hostKey A, dumps vA), (hostKey B, dumps vB)] [] [] = some [] from rfl]
    unfold reconcile
    rw [show skeys [(hostKey A, dumps vA), (hostKey B, dumps vB)] =
        [hostKey A, hostKey B] from rfl]
    rw [hrec]
  · rw [sget_sdel_ne _ (fun he => hK he.symm)]
    simp [sget]

/-- C9 witness: hosts `a` and `b` with identity payload encoding. -/
theorem c9_reconcile_safety_witness :
    hook_load_retention (fun b : Nat => some b) (fun _ => false) ["a".toList] []
        (hook_save_retention (fun v : Nat => v)
          [("a".toList, 0), ("b".toList, 1)] [] []) =
      .ok [("a".toList, 0)] []
        (sdel (hook_save_retention (fun v : Nat => v)
          [("a".toList, 0), ("b".toList, 1)] [] []) (hostKey "b".toList)) ∧
    sget (sdel (hook_save_retention (fun v : Nat => v)
          [("a".toList, 0), ("b".toList, 1)] [] []) (hostKey "b".toList))
        (hostKey "b".toList) = none ∧
    sget (sdel (hook_save_retention (fun v : Nat => v)
          [("a".toList, 0), ("b".toList, 1)] [] []) (hostKey "b".toList))
        (hostKey "a".toList) = some 0 :=
  c9_reconcile_safety (fun v : Nat => v) (fun b => some b)
    "a".toList "b".toList 0 1 (by decide) rfl

/-- C10: the Load hook never creates or overwrites a store entry.
Whatever the outcome (success, decode error, scan crash or delete
failure), every key either still holds exactly the value it held
before the pass, or has been deleted — and a deleted key is one whose
classification decoded an identity absent from the daemon's data. -/
theorem c10_load_frame {α β : Type} (loadsE : β → Option α)
    (delFails : Str → Bool) (dh : List Str) (ds : List (Str × Str))
    (st : Store β) (k : Str) :
    sget (hookStore (hook_load_retention loadsE delFails dh ds st)) k =
        sget st k ∨
      (sget (hookStore (hook_load_retention loadsE delFails dh ds st)) k =
          none ∧ OutdatedKey dh ds k) := by
  unfold hook_load_retention
  cases hlh : loadHosts loadsE st dh [] with
  | none => exact Or.inl rfl
  | some rh =>
    cases hls : loadServices loadsE st ds [] with
    | none => exact Or.inl rfl
    | some rs =>
      have hfr := reconcileGo_frame delFails dh ds (skeys st) st k
      unfold reconcile
      cases hr : reconcileGo delFails dh ds (skeys st) st with
      | ok st' =>
        rw [hr] at hfr
        exact hfr
      | error st' =>
        rw [hr] at hfr
        exact hfr

end RetentionRedis
